import Mathlib

/-!
Verification of tf_reinforcement_testcases against its design document.

The file shallowly embeds the replay-buffer and n-step-return logic of the
repository (abstract_agent.py, deep_q_learning.py, storage.py): pure tensor
arithmetic becomes arithmetic over lists of rationals (reals where the code
takes fractional powers), the per-episode trajectory writer becomes an
explicit list of appended steps, and the bounded in-process replay deque
becomes a list with explicit head eviction.
-/

namespace TfRl

/-! ### n-step return assembly: Agent._prepare_td_arguments (abstract_agent.py 125-138) -/

/-- One batch item as sampled from the buffer: per-field lists of length n_steps
(the time axis of the sampled tensors). -/
structure TdItem (Obs : Type) where
  actions : List ℤ
  observations : List Obs
  rewards : List ℚ
  dones : List Bool

/-- Embedding of lines 126-128: `tf.pow(gammas, exponents)` with exponents
`tf.range(n_steps - 1)`, i.e. the column vector `[γ^0, γ^1, ..., γ^(n_steps-2)]`. -/
def discountedGammas (γ : ℚ) (nSteps : ℕ) : List ℚ :=
  (List.range (nSteps - 1)).map (fun t => γ ^ t)

/-- Embedding of line 130: `tf.matmul(rewards[:, 1:], discounted_gammas)` for one
batch row, the dot product of the rewards with index ≥ 1 against the gamma powers. -/
def totalReward (γ : ℚ) (nSteps : ℕ) (rewards : List ℚ) : ℚ :=
  (List.zipWith (fun r g => r * g) (rewards.drop 1) (discountedGammas γ nSteps)).sum

/-- The six per-item values returned by `_prepare_td_arguments`. -/
structure TdArgs (Obs : Type) where
  totalRewards : ℚ
  firstObservation : Obs
  lastObservation : Obs
  lastDone : Bool
  lastDiscountedGamma : ℚ
  secondAction : ℤ

/-- Embedding of `Agent._prepare_td_arguments` for one batch row: tensor index 0 is
`head?`, tensor index -1 is `getLast?`, `actions[:, 1]` is index 1; `none` models a
shape error on malformed input (the code assumes tensors of time length n_steps). -/
def prepareTdArguments (γ : ℚ) (nSteps : ℕ) (item : TdItem Obs) : Option (TdArgs Obs) :=
  match item.observations.head?, item.observations.getLast?,
        item.dones.getLast?, item.actions[1]? with
  | some o0, some oLast, some dLast, some a1 =>
      some { totalRewards := totalReward γ nSteps item.rewards
             firstObservation := o0
             lastObservation := oLast
             lastDone := dLast
             lastDiscountedGamma := γ ^ (nSteps - 1)
             secondAction := a1 }
  | _, _, _, _ => none

/-- Dot product of a list against the matching prefix of `f 0, f 1, ...` as a
`Finset.range` sum. -/
lemma zipWith_mul_map_range_sum (l : List ℚ) :
    ∀ f : ℕ → ℚ,
      (List.zipWith (fun r g => r * g) l ((List.range l.length).map f)).sum
        = ∑ t in Finset.range l.length, l.getD t 0 * f t := by
  induction l with
  | nil => intro f; simp
  | cons a l ih =>
      intro f
      rw [List.length_cons, List.range_succ_eq_map]
      simp only [List.map_cons, List.zipWith_cons_cons, List.sum_cons, List.map_map]
      have hcomp : (List.range l.length).map (f ∘ Nat.succ)
          = (List.range l.length).map (fun t => f (t + 1)) := by
        apply List.map_congr_left
        intro t _
        simp [Nat.succ_eq_add_one]
      rw [hcomp, ih (fun t => f (t + 1)), Finset.sum_range_succ']
      simp [add_comm]

/-- The matmul of line 130 equals the spec's discounted-return sum
`Σ_{t=1}^{N-1} γ^{t-1} · reward_t` when the reward list has time length `nSteps`. -/
lemma totalReward_eq_sum (γ : ℚ) (nSteps : ℕ) (rewards : List ℚ)
    (h2 : 2 ≤ nSteps) (hlen : rewards.length = nSteps) :
    totalReward γ nSteps rewards
      = ∑ t in Finset.Icc 1 (nSteps - 1), γ ^ (t - 1) * rewards.getD t 0 := by
  have hdlen : (rewards.drop 1).length = nSteps - 1 := by
    simp [List.length_drop, hlen]
  have hmain := zipWith_mul_map_range_sum (rewards.drop 1) (fun t => γ ^ t)
  rw [hdlen] at hmain
  unfold totalReward discountedGammas
  rw [hmain]
  have hIcc : Finset.Icc 1 (nSteps - 1) = Finset.Ico 1 nSteps := by
    rw [← Nat.Ico_succ_right]
    congr 1
    omega
  rw [hIcc, Finset.sum_Ico_eq_sum_range]
  apply Finset.sum_congr rfl
  intro i _
  have hget : (rewards.drop 1).getD i 0 = rewards.getD (1 + i) 0 := by
    simp only [List.getD_eq_getElem?_getD, List.getElem?_drop]
  rw [hget]
  have he : 1 + i - 1 = i := by omega
  rw [he, mul_comm]

/-- C1: for every sampled item, a window of N = n_steps consecutive steps,
`_prepare_td_arguments` returns the discounted return
`R = Σ_{t=1}^{N-1} γ^(t-1) · reward_t` (step-0 reward excluded), the observation of
step 0, the observation of step N−1, the done flag of step N−1, the bootstrap
discount `γ^(N-1)`, and the action recorded at step 1; in particular for N = 3 with
rewards `[0, r1, r2]` the return is `r1 + γ·r2`, and for N = 2 it is `r1` with
bootstrap discount `γ`. -/
theorem prepareTdArguments_spec (Obs : Type) (γ : ℚ) (nSteps : ℕ) (item : TdItem Obs)
    (h : 2 ≤ nSteps ∧ item.actions.length = nSteps ∧ item.observations.length = nSteps ∧
         item.rewards.length = nSteps ∧ item.dones.length = nSteps) :
    (∃ args : TdArgs Obs,
      prepareTdArguments γ nSteps item = some args ∧
      args.totalRewards
        = ∑ t in Finset.Icc 1 (nSteps - 1), γ ^ (t - 1) * item.rewards.getD t 0 ∧
      item.observations[0]? = some args.firstObservation ∧
      item.observations[nSteps - 1]? = some args.lastObservation ∧
      item.dones[nSteps - 1]? = some args.lastDone ∧
      args.lastDiscountedGamma = γ ^ (nSteps - 1) ∧
      item.actions[1]? = some args.secondAction) ∧
    (∀ r1 r2 : ℚ, totalReward γ 3 [0, r1, r2] = r1 + γ * r2) ∧
    (∀ r1 : ℚ, totalReward γ 2 [0, r1] = r1) ∧
    γ ^ (2 - 1) = γ := by
  obtain ⟨h2, ha, ho, hr, hd⟩ := h
  have h0 : 0 < item.observations.length := by omega
  have hN1 : nSteps - 1 < item.observations.length := by omega
  have hN1d : nSteps - 1 < item.dones.length := by omega
  have h1a : 1 < item.actions.length := by omega
  refine ⟨⟨⟨totalReward γ nSteps item.rewards,
            item.observations.get ⟨0, h0⟩,
            item.observations.get ⟨nSteps - 1, hN1⟩,
            item.dones.get ⟨nSteps - 1, hN1d⟩,
            γ ^ (nSteps - 1),
            item.actions.get ⟨1, h1a⟩⟩, ?_, ?_, ?_, ?_, ?_, rfl, ?_⟩, ?_, ?_, ?_⟩
  · unfold prepareTdArguments
    rw [List.head?_eq_getElem?, List.getLast?_eq_getElem?, List.getLast?_eq_getElem?]
    simp only [ho, hd]
    rw [List.getElem?_eq_getElem h0, List.getElem?_eq_getElem hN1,
        List.getElem?_eq_getElem hN1d, List.getElem?_eq_getElem h1a]
    rfl
  · exact totalReward_eq_sum γ nSteps item.rewards h2 hr
  · simp [List.getElem?_eq_getElem h0, List.get_eq_getElem]
  · simp [List.getElem?_eq_getElem hN1, List.get_eq_getElem]
  · simp [List.getElem?_eq_getElem hN1d, List.get_eq_getElem]
  · simp [List.getElem?_eq_getElem h1a, List.get_eq_getElem]
  · intro r1 r2
    simp [totalReward, discountedGammas, List.range_succ]
    ring
  · intro r1
    simp [totalReward, discountedGammas, List.range_succ]
  · exact pow_one γ

/-- Witness for C1: the theorem applied to a concrete N = 3 item. -/
theorem prepareTdArguments_spec_witness :
    (2 ≤ 3 ∧
     (TdItem.mk [-1, 2, 0] ([10, 11, 12] : List ℤ) [0, 5, 7]
        [false, false, true]).actions.length = 3 ∧
     (TdItem.mk [-1, 2, 0] ([10, 11, 12] : List ℤ) [0, 5, 7]
        [false, false, true]).observations.length = 3 ∧
     (TdItem.mk [-1, 2, 0] ([10, 11, 12] : List ℤ) [0, 5, 7]
        [false, false, true]).rewards.length = 3 ∧
     (TdItem.mk [-1, 2, 0] ([10, 11, 12] : List ℤ) [0, 5, 7]
        [false, false, true]).dones.length = 3) ∧
    ((∃ args : TdArgs ℤ,
      prepareTdArguments (19/20) 3
          (TdItem.mk [-1, 2, 0] [10, 11, 12] [0, 5, 7] [false, false, true]) = some args ∧
      args.totalRewards
        = ∑ t in Finset.Icc 1 (3 - 1), (19/20 : ℚ) ^ (t - 1) *
            (TdItem.mk [-1, 2, 0] ([10, 11, 12] : List ℤ) [0, 5, 7]
               [false, false, true]).rewards.getD t 0 ∧
      (TdItem.mk [-1, 2, 0] ([10, 11, 12] : List ℤ) [0, 5, 7]
         [false, false, true]).observations[0]? = some args.firstObservation ∧
      (TdItem.mk [-1, 2, 0] ([10, 11, 12] : List ℤ) [0, 5, 7]
         [false, false, true]).observations[3 - 1]? = some args.lastObservation ∧
      (TdItem.mk [-1, 2, 0] ([10, 11, 12] : List ℤ) [0, 5, 7]
         [false, false, true]).dones[3 - 1]? = some args.lastDone ∧
      args.lastDiscountedGamma = (19/20 : ℚ) ^ (3 - 1) ∧
      (TdItem.mk [-1, 2, 0] ([10, 11, 12] : List ℤ) [0, 5, 7]
         [false, false, true]).actions[1]? = some args.secondAction) ∧
    (∀ r1 r2 : ℚ, totalReward (19/20) 3 [0, r1, r2] = r1 + (19/20) * r2) ∧
    (∀ r1 : ℚ, totalReward (19/20) 2 [0, r1] = r1) ∧
    (19/20 : ℚ) ^ (2 - 1) = 19/20) :=
  ⟨by refine ⟨by decide, by decide, by decide, by decide, by decide⟩,
   prepareTdArguments_spec ℤ (19/20) 3
     (TdItem.mk [-1, 2, 0] [10, 11, 12] [0, 5, 7] [false, false, true])
     ⟨by decide, by decide, by decide, by decide, by decide⟩⟩

/-! ### Importance-sampling beta: PriorityDoubleDuelingDQNAgent
(deep_q_learning.py lines 334-335 and 354) -/

/-- Initial value of `self._beta = tf.Variable(0.4)` (line 334). -/
def betaInitialValue : ℚ := 2/5

/-- Value of `self._beta_increment = tf.constant(0.0001)` (line 335). -/
def betaIncrement : ℚ := 1/10000

/-- Embedding of line 354: the local beta computed and used inside `_training_step`,
`beta = tf.reduce_min(tf.stack([tf.constant(1.0), beta + beta_increment]))`. -/
def trainingStepBetaUsed (storedBeta : ℚ) : ℚ := min 1 (storedBeta + betaIncrement)

/-- Effect of one `_training_step` call on the stored variable `self._beta`: the
method rebinds only the local name and never assigns to the variable, so the stored
value is unchanged. -/
def trainingStepStoredBetaNext (storedBeta : ℚ) : ℚ := storedBeta

/-- The stored `self._beta` after k completed training steps. -/
def storedBetaAfter (k : ℕ) : ℚ := trainingStepStoredBetaNext^[k] betaInitialValue

/-- The beta used in the importance-sampling exponent of the k-th training step
(1-indexed), which reads the stored value left by the k − 1 preceding steps. -/
def betaUsedAtStep (k : ℕ) : ℚ := trainingStepBetaUsed (storedBetaAfter (k - 1))

/-- The beta value the design document prescribes after k training steps:
min(1, 0.4 + k·0.0001). -/
def claimedBetaAtStep (k : ℕ) : ℚ := min 1 (betaInitialValue + k * betaIncrement)

/-- C2 (code bug): the beta used in the importance-sampling exponent is the constant
0.4001 at every training step — the incremented value is computed into a local and
never stored back into `self._beta` — so after k = 2 steps it differs from the
claimed `min(1.0, 0.4 + k·0.0001) = 0.4002`, and beta never accumulates toward the
1.0 cap. -/
theorem betaNeverIncrements :
    (∀ k : ℕ, betaUsedAtStep k = 4001/10000) ∧
    betaUsedAtStep 2 = 4001/10000 ∧
    claimedBetaAtStep 2 = 4002/10000 ∧
    betaUsedAtStep 2 ≠ claimedBetaAtStep 2 := by
  have hstored : ∀ k : ℕ, storedBetaAfter k = betaInitialValue := fun k =>
    Function.iterate_fixed rfl k
  have hused : ∀ k : ℕ, betaUsedAtStep k = 4001/10000 := by
    intro k
    unfold betaUsedAtStep trainingStepBetaUsed
    rw [hstored]
    norm_num [betaInitialValue, betaIncrement]
  refine ⟨hused, hused 2, ?_, ?_⟩
  · norm_num [claimedBetaAtStep, betaInitialValue, betaIncrement]
  · rw [hused 2]
    norm_num [claimedBetaAtStep, betaInitialValue, betaIncrement]

/-! ### Item creation per episode: Agent._collect_trajectories_from_episode
(abstract_agent.py lines 92-119) -/

/-- Embedding of line 101: `start_itemizing = self._n_steps - 2`. -/
def startItemizing (nSteps : ℕ) : ℕ := nSteps - 2

/-- The create_item calls issued by one episode in which the environment takes L
steps before done: the loop body at step s (s = 0, 1, ...) appends the step and,
when `start_itemizing ≤ s`, calls `create_item(num_timesteps = n_steps)`
(lines 107-119); the loop exits after the step where done is observed. Each list
entry records (loop step index, num_timesteps argument). -/
def episodeItems (nSteps L : ℕ) : List (ℕ × ℕ) :=
  ((List.range L).filter (fun s => startItemizing nSteps ≤ s)).map (fun s => (s, nSteps))

/-- Number of writer appends that have happened when the create_item check at loop
step s runs: the sentinel of line 106 plus the s + 1 steps appended by line 112. -/
def appendedWhenChecking (s : ℕ) : ℕ := 1 + (s + 1)

/-- Filtering `range L` by `c ≤ ·` keeps exactly the tail `[c, c+1, ..., L-1]`. -/
lemma range_filter_ge (c L : ℕ) (h : c ≤ L) :
    (List.range L).filter (fun s => c ≤ s) = (List.range (L - c)).map (fun i => c + i) := by
  obtain ⟨d, rfl⟩ : ∃ d, L = c + d := ⟨L - c, by omega⟩
  rw [List.range_add, List.filter_append]
  have h1 : (List.range c).filter (fun s => decide (c ≤ s)) = [] := by
    rw [List.filter_eq_nil_iff]
    intro a ha
    have : a < c := List.mem_range.mp ha
    simp only [decide_eq_true_eq]
    omega
  have h2 : ((List.range d).map (fun i => c + i)).filter (fun s => decide (c ≤ s))
      = (List.range d).map (fun i => c + i) := by
    rw [List.filter_eq_self]
    intro a ha
    obtain ⟨i, _, rfl⟩ := List.mem_map.mp ha
    simp only [decide_eq_true_eq]
    omega
  simp only [h1, h2, List.nil_append, Nat.add_sub_cancel_left]

/-- C3: an episode in which the environment takes L steps before done, with
L ≥ N − 1 (N = n_steps ≥ 2), issues exactly L − N + 2 create_item calls, each with
num_timesteps = n_steps; the first is at loop step N − 2, where N total steps
(sentinel included) have been appended, and one follows at every subsequent step. -/
theorem episodeItems_spec (nSteps L : ℕ) (h : 2 ≤ nSteps ∧ nSteps - 1 ≤ L) :
    episodeItems nSteps L
      = (List.range (L + 2 - nSteps)).map (fun i => (startItemizing nSteps + i, nSteps)) ∧
    (episodeItems nSteps L).length = L + 2 - nSteps ∧
    (∀ p ∈ episodeItems nSteps L, p.2 = nSteps) ∧
    (episodeItems nSteps L).head? = some (startItemizing nSteps, nSteps) ∧
    appendedWhenChecking (startItemizing nSteps) = nSteps := by
  obtain ⟨h2, hL⟩ := h
  have hc : startItemizing nSteps ≤ L := by unfold startItemizing; omega
  have hmain : episodeItems nSteps L
      = (List.range (L + 2 - nSteps)).map (fun i => (startItemizing nSteps + i, nSteps)) := by
    unfold episodeItems
    rw [range_filter_ge _ _ hc, List.map_map]
    have hlen : L - startItemizing nSteps = L + 2 - nSteps := by
      unfold startItemizing; omega
    rw [hlen]
    rfl
  refine ⟨hmain, ?_, ?_, ?_, ?_⟩
  · rw [hmain]; simp
  · rw [hmain]
    intro p hp
    obtain ⟨i, _, rfl⟩ := List.mem_map.mp hp
    rfl
  · rw [hmain]
    obtain ⟨m, hm⟩ : ∃ m, L + 2 - nSteps = m + 1 := ⟨L + 1 - nSteps, by omega⟩
    rw [hm, List.range_succ_eq_map, List.map_cons, List.head?_cons]
    rfl
  · unfold appendedWhenChecking startItemizing
    omega

/-- Witness for C3: a length-4 episode with n_steps = 3 yields 3 items. -/
theorem episodeItems_spec_witness :
    (2 ≤ 3 ∧ 3 - 1 ≤ 4) ∧
    (episodeItems 3 4
      = (List.range (4 + 2 - 3)).map (fun i => (startItemizing 3 + i, 3)) ∧
    (episodeItems 3 4).length = 4 + 2 - 3 ∧
    (∀ p ∈ episodeItems 3 4, p.2 = 3) ∧
    (episodeItems 3 4).head? = some (startItemizing 3, 3) ∧
    appendedWhenChecking (startItemizing 3) = 3) :=
  ⟨by decide, episodeItems_spec 3 4 ⟨by decide, by decide⟩⟩

/-! ### Episode sentinel: abstract_agent.py lines 102-106 -/

/-- One trajectory-writer entry `(action, obs, reward, done)`. -/
structure Step (Obs : Type) where
  action : ℤ
  obs : Obs
  reward : ℚ
  done : Bool

/-- Embedding of lines 104-106: the entry appended right after `reset()`, before any
environment step: `action = np.int32(-1), reward = np.float32(0), done =
np.float32(0)` (a false done flag). -/
def sentinelStep (initObs : Obs) : Step Obs := ⟨-1, initObs, 0, false⟩

/-- The full sequence of writer appends of one episode: the writer is opened fresh
per episode (line 102), the sentinel is appended first (line 106), and the loop
appends each environment step after it (line 112). -/
def episodeAppends (initObs : Obs) (envSteps : List (Step Obs)) : List (Step Obs) :=
  sentinelStep initObs :: envSteps

/-- An item window materialized at loop step s: the trailing `nSteps` entries of the
appends made so far (s + 2 of them), taken exclusively from this episode's writer. -/
def itemWindow (initObs : Obs) (envSteps : List (Step Obs)) (s nSteps : ℕ) :
    List (Step Obs) :=
  ((episodeAppends initObs envSteps).take (s + 2)).drop (s + 2 - nSteps)

/-- C4: in every collected episode the first entry appended to the trajectory
writer, before any environment step, is the sentinel with action = −1, reward = 0
and done = false, and every item window draws only on this episode's appends (a
window never splices across an episode boundary). -/
theorem episodeSentinel_spec (Obs : Type) (initObs : Obs) (envSteps : List (Step Obs)) :
    (episodeAppends initObs envSteps).head? = some (sentinelStep initObs) ∧
    (sentinelStep initObs).action = -1 ∧
    (sentinelStep initObs).reward = 0 ∧
    (sentinelStep initObs).done = false ∧
    (∀ s nSteps : ℕ, ∀ x ∈ itemWindow initObs envSteps s nSteps,
        x ∈ episodeAppends initObs envSteps) := by
  refine ⟨rfl, rfl, rfl, rfl, ?_⟩
  intro s nSteps x hx
  have h1 : x ∈ (episodeAppends initObs envSteps).take (s + 2) :=
    (List.drop_sublist _ _).subset hx
  exact (List.take_sublist _ _).subset h1

/-! ### Buffer and agent construction: storage.py lines 34-58 and 73-89,
abstract_agent.py lines 22-60 -/

/-- The sampler strategy a table is constructed with. -/
inductive SamplerKind where
  | uniform : SamplerKind
  | prioritized (priorityExponent : ℚ) : SamplerKind
deriving DecidableEq

/-- The remover strategy a table is constructed with. -/
inductive RemoverKind where
  | fifo : RemoverKind
deriving DecidableEq

/-- Configuration of one reverb table as built by the buffer constructors. -/
structure TableConfig where
  name : String
  sampler : SamplerKind
  remover : RemoverKind
  maxSize : ℕ
  rateLimiterMinSize : ℕ
deriving DecidableEq

/-- The state a buffer constructor produces. -/
structure BufferState where
  minSize : ℕ
  tableName : String
  table : TableConfig
deriving DecidableEq

/-- Embedding of `UniformBuffer.__init__` (storage.py lines 35-58): stores min_size,
fixes the table name, and builds one table with a Uniform sampler, a Fifo remover,
max_size as the size bound and a MinSize(min_size) rate limiter. The constructor
performs no parameter validation, so it never fails. -/
def uniformBufferInit (minSize maxSize : ℕ) : Except String BufferState :=
  Except.ok
    { minSize := minSize
      tableName := "uniform_table"
      table :=
        { name := "uniform_table"
          sampler := SamplerKind.uniform
          remover := RemoverKind.fifo
          maxSize := maxSize
          rateLimiterMinSize := minSize } }

/-- Embedding of `PriorityBuffer.__init__` (storage.py lines 74-89): as above with a
Prioritized(priority_exponent=0.8) sampler; again no validation of any kind. -/
def priorityBufferInit (minSize maxSize : ℕ) : Except String BufferState :=
  Except.ok
    { minSize := minSize
      tableName := "priority_table"
      table :=
        { name := "priority_table"
          sampler := SamplerKind.prioritized (8/10)
          remover := RemoverKind.fifo
          maxSize := maxSize
          rateLimiterMinSize := minSize } }

/-- The construction-time state of `Agent.__init__` relevant to its parameters. -/
structure AgentState where
  nSteps : ℤ
  discountRate : ℚ
  sampleBatchSize : ℕ
  itemsCreated : ℕ
  itemsSampled : ℕ
deriving DecidableEq

/-- Embedding of the parameter handling of `Agent.__init__` (abstract_agent.py lines
22-60): the discount rate is fixed at 0.95, the sample batch size is taken from the
buffer's min_size, and n_steps is stored exactly as given — no check of any kind is
made on it (line 50 merely carries a comment that it "should be at least 2"). -/
def agentInit (buffer : BufferState) (nSteps : ℤ) : Except String AgentState :=
  Except.ok
    { nSteps := nSteps
      discountRate := 19/20
      sampleBatchSize := buffer.minSize
      itemsCreated := 0
      itemsSampled := 0 }

/-- C5 counterexample: a buffer with min_size = 10 > max_size = 5 and, on top of it,
an agent with n_steps = 1 < 2 are both constructed successfully — nothing is
rejected at construction time. -/
theorem constructionNoValidation_counterexample :
    (uniformBufferInit 10 5).isOk = true ∧
    (uniformBufferInit 10 5).map (fun b => (agentInit b 1).isOk) = Except.ok true := by
  constructor <;> rfl

/-- C5 amended: construction never validates its parameters — every n_steps
(including values < 2) and every min_size/max_size combination (including
min_size > max_size) is accepted, and construction always succeeds. -/
theorem constructionNoValidation (minSize maxSize : ℕ) (nSteps : ℤ) (b : BufferState) :
    (uniformBufferInit minSize maxSize).isOk = true ∧
    (priorityBufferInit minSize maxSize).isOk = true ∧
    (agentInit b nSteps).isOk = true := by
  refine ⟨rfl, rfl, rfl⟩

/-! ### Bounded in-process replay memory: deep_q_learning.py lines 54-58 and 180,
and the table size bound of storage.py -/

/-- Capacity of the in-process replay memory `deque(maxlen=40000)`
(deep_q_learning.py line 180). -/
def replayMemoryMaxlen : ℕ := 40000

/-- Embedding of `deque.append` under a maxlen bound: the new element is appended on
the right and, whenever the length exceeds maxlen, elements are discarded from the
left until it no longer does. -/
def dequeAppend (maxlen : ℕ) (q : List α) (x : α) : List α :=
  let grown := q ++ [x]
  if maxlen < grown.length then grown.drop (grown.length - maxlen) else grown

/-- One bounded append never leaves more than maxlen elements. -/
lemma dequeAppend_length_le (maxlen : ℕ) (q : List α) (x : α) :
    (dequeAppend maxlen q x).length ≤ maxlen := by
  simp only [dequeAppend]
  split
  · rename_i hc
    simp only [List.length_append, List.length_cons] at hc
    simp only [List.length_drop, List.length_append, List.length_cons]
    omega
  · rename_i hc
    simp only [List.length_append, List.length_cons] at hc ⊢
    omega

/-- C6: for every insert sequence, the in-process replay memory holds at most 40000
entries after every append (every prefix of the insert sequence leaves at most
40000 residents), and both buffer tables are constructed with max_size as their
size bound. -/
theorem replaySizeBounded (α : Type) (inserts : List α) (k minSize maxSize : ℕ) :
    ((inserts.take k).foldl (dequeAppend replayMemoryMaxlen) []).length
        ≤ replayMemoryMaxlen ∧
    (uniformBufferInit minSize maxSize).map (fun b => b.table.maxSize)
        = Except.ok maxSize ∧
    (priorityBufferInit minSize maxSize).map (fun b => b.table.maxSize)
        = Except.ok maxSize := by
  refine ⟨?_, rfl, rfl⟩
  have hfold : ∀ (l q : List α), q.length ≤ replayMemoryMaxlen →
      (l.foldl (dequeAppend replayMemoryMaxlen) q).length ≤ replayMemoryMaxlen := by
    intro l
    induction l with
    | nil => intro q hq; exact hq
    | cons a l ih =>
        intro q _
        exact ih _ (dequeAppend_length_le _ _ _)
  exact hfold _ [] (by simp [replayMemoryMaxlen])

/-- Embedding of one bounded append that also reports the discarded entry. Entries
are labeled by their insertion index, so list order is insertion order; when the
deque is at capacity the leftmost (head) entry is the one discarded. -/
def dequePush (maxlen : ℕ) (q : List ℕ) (i : ℕ) : List ℕ × Option ℕ :=
  let grown := q ++ [i]
  if maxlen < grown.length then (grown.tail, grown.head?) else (grown, none)

/-- C7: whenever an insert into the full replay store evicts an entry, the evicted
entry is the earliest-inserted among the residents: the labels in the deque are in
insertion order (strictly increasing) and the evicted label is the least among all
residents including the new one; moreover both buffer tables are constructed with a
FIFO remover, and the insertion-order invariant is preserved by the push. -/
theorem fifoEviction (maxlen : ℕ) (q : List ℕ) (i e : ℕ) (q2 : List ℕ)
    (h : q.Pairwise (· < ·) ∧ (∀ x ∈ q, x < i) ∧ dequePush maxlen q i = (q2, some e)) :
    (∀ mn mx : ℕ, (uniformBufferInit mn mx).map (fun b => b.table.remover)
        = Except.ok RemoverKind.fifo) ∧
    (∀ mn mx : ℕ, (priorityBufferInit mn mx).map (fun b => b.table.remover)
        = Except.ok RemoverKind.fifo) ∧
    e ∈ q ++ [i] ∧
    (∀ x ∈ q ++ [i], e ≤ x) ∧
    q2.Pairwise (· < ·) ∧
    (∀ x ∈ q2, x < i + 1) := by
  obtain ⟨hs, hf, hp⟩ := h
  simp only [dequePush] at hp
  refine ⟨fun _ _ => rfl, fun _ _ => rfl, ?_⟩
  split at hp
  case isFalse => simp at hp
  case isTrue hc =>
    rw [Prod.mk.injEq] at hp
    obtain ⟨hq2, he⟩ := hp
    subst hq2
    cases q with
    | nil =>
        simp only [List.nil_append, List.head?_cons, Option.some.injEq] at he
        subst he
        refine ⟨by simp, ?_, ?_, ?_⟩
        · intro x hx
          simp only [List.nil_append, List.mem_singleton] at hx
          omega
        · simp
        · intro x hx
          simp at hx
    | cons a t =>
        simp only [List.cons_append, List.head?_cons, Option.some.injEq] at he
        subst he
        have hat : ∀ x ∈ t, a < x := fun x hx => (List.pairwise_cons.mp hs).1 x hx
        have hai : a < i := hf a (List.mem_cons_self a t)
        refine ⟨List.mem_cons_self a _, ?_, ?_, ?_⟩
        · intro x hx
          rcases List.mem_cons.mp hx with hxe | hx2
          · omega
          · rcases List.mem_append.mp hx2 with hxt | hxi
            · exact le_of_lt (hat x hxt)
            · have hxi2 : x = i := List.mem_singleton.mp hxi
              omega
        · simp only [List.cons_append, List.tail_cons]
          rw [List.pairwise_append]
          refine ⟨(List.pairwise_cons.mp hs).2, List.pairwise_singleton _ _, ?_⟩
          intro x hx y hy
          have hyi : y = i := List.mem_singleton.mp hy
          subst hyi
          exact hf x (List.mem_cons_of_mem _ hx)
        · intro x hx
          simp only [List.cons_append, List.tail_cons] at hx
          rcases List.mem_append.mp hx with hxt | hxi
          · have := hf x (List.mem_cons_of_mem _ hxt)
            omega
          · have hxi2 : x = i := List.mem_singleton.mp hxi
            omega

/-- Witness for C7: pushing label 2 into the full two-slot deque holding labels
0 and 1 evicts label 0, the earliest-inserted. -/
theorem fifoEviction_witness :
    (([0, 1] : List ℕ).Pairwise (· < ·) ∧ (∀ x ∈ ([0, 1] : List ℕ), x < 2) ∧
      dequePush 2 [0, 1] 2 = ([1, 2], some 0)) ∧
    ((∀ mn mx : ℕ, (uniformBufferInit mn mx).map (fun b => b.table.remover)
        = Except.ok RemoverKind.fifo) ∧
    (∀ mn mx : ℕ, (priorityBufferInit mn mx).map (fun b => b.table.remover)
        = Except.ok RemoverKind.fifo) ∧
    0 ∈ ([0, 1] : List ℕ) ++ [2] ∧
    (∀ x ∈ ([0, 1] : List ℕ) ++ [2], 0 ≤ x) ∧
    ([1, 2] : List ℕ).Pairwise (· < ·) ∧
    (∀ x ∈ ([1, 2] : List ℕ), x < 2 + 1)) :=
  ⟨⟨by decide, by decide, by decide⟩,
   fifoEviction 2 [0, 1] 2 0 [1, 2] ⟨by decide, by decide, by decide⟩⟩

/-! ### Priority updates on possibly stale keys:
PriorityDoubleDuelingDQNAgent._training_step, deep_q_learning.py line 380 -/

/-- Modelled from the spec: the priority table behind the replay memory of
`PriorityDoubleDuelingDQNAgent` (deep_q_learning.py line 331). The class supplying
`update_priorities`/`sample_batch` for this agent is not among the sources
(storage.py builds only the reverb server), so the table is modelled from the
design document as the association of resident keys to priorities. -/
def lookupPriority (k : ℕ) : List (ℕ × ℚ) → Option ℚ
  | [] => none
  | kv :: t => if kv.1 = k then some kv.2 else lookupPriority k t

/-- Modelled from the spec: applying one (key, new_priority) pair rewrites the
priority of the resident item with that key and touches nothing else; a key with no
resident item (already evicted) matches no entry. -/
def applyUpdate (table : List (ℕ × ℚ)) (u : ℕ × ℚ) : List (ℕ × ℚ) :=
  table.map (fun kv => if kv.1 = u.1 then (kv.1, u.2) else kv)

/-- Modelled from the spec: `update_priorities(keys, priorities)` applies the pairs
in order; it is a total function, so no mix of resident and stale keys can raise. -/
def updatePriorities (table : List (ℕ × ℚ)) (updates : List (ℕ × ℚ)) : List (ℕ × ℚ) :=
  updates.foldl applyUpdate table

/-- Applying one update never changes the key set. -/
lemma applyUpdate_keys (t : List (ℕ × ℚ)) (u : ℕ × ℚ) :
    (applyUpdate t u).map Prod.fst = t.map Prod.fst := by
  unfold applyUpdate
  rw [List.map_map]
  apply List.map_congr_left
  intro kv _
  by_cases hkv : kv.1 = u.1
  · simp [Function.comp, hkv]
  · simp [Function.comp, hkv]

/-- An update whose key is not resident is a no-op. -/
lemma applyUpdate_stale (t : List (ℕ × ℚ)) (u : ℕ × ℚ)
    (h : u.1 ∉ t.map Prod.fst) : applyUpdate t u = t := by
  induction t with
  | nil => rfl
  | cons kv t ih =>
      simp only [List.map_cons, List.mem_cons, not_or] at h
      obtain ⟨h1, h2⟩ := h
      show (if kv.1 = u.1 then (kv.1, u.2) else kv) :: applyUpdate t u = kv :: t
      rw [if_neg (fun he => h1 he.symm), ih h2]

/-- A batch of updates never changes the key set. -/
lemma updatePriorities_keys (us : List (ℕ × ℚ)) :
    ∀ t : List (ℕ × ℚ), (updatePriorities t us).map Prod.fst = t.map Prod.fst := by
  induction us with
  | nil => intro t; rfl
  | cons u us ih =>
      intro t
      show (updatePriorities (applyUpdate t u) us).map Prod.fst = t.map Prod.fst
      rw [ih (applyUpdate t u), applyUpdate_keys]

/-- A resident key's update is applied: after the batch, looking the key up yields
the last priority written for it. -/
lemma lookupPriority_applyUpdate (t : List (ℕ × ℚ)) (k : ℕ) (p : ℚ)
    (hnd : (t.map Prod.fst).Nodup) (hk : k ∈ t.map Prod.fst) :
    lookupPriority k (applyUpdate t (k, p)) = some p := by
  induction t with
  | nil => simp at hk
  | cons kv t ih =>
      simp only [List.map_cons, List.nodup_cons] at hnd
      simp only [List.map_cons, List.mem_cons] at hk
      by_cases hkk : kv.1 = k
      · show lookupPriority k ((if kv.1 = k then (kv.1, p) else kv) :: applyUpdate t (k, p))
            = some p
        rw [if_pos hkk]
        simp [lookupPriority, hkk]
      · show lookupPriority k ((if kv.1 = k then (kv.1, p) else kv) :: applyUpdate t (k, p))
            = some p
        rw [if_neg hkk]
        have hk2 : k ∈ t.map Prod.fst := by
          rcases hk with hk1 | hk2
          · exact absurd hk1.symm hkk
          · exact hk2
        rw [show lookupPriority k (kv :: applyUpdate t (k, p))
              = lookupPriority k (applyUpdate t (k, p)) from by simp [lookupPriority, hkk]]
        exact ih hnd.2 hk2

/-- C9: for every call to update_priorities with any mix of resident and stale
keys, the stale updates are silently ignored (an update on a non-resident key is a
no-op, and dropping every stale pair from the batch leaves the result unchanged),
no key is ever added or removed by the call, and the updates carrying resident keys
are still applied. -/
theorem updatePriorities_spec (table us : List (ℕ × ℚ)) (k : ℕ) (p : ℚ)
    (h : (table.map Prod.fst).Nodup ∧ k ∈ table.map Prod.fst) :
    (∀ t : List (ℕ × ℚ), ∀ u : ℕ × ℚ, u.1 ∉ t.map Prod.fst → applyUpdate t u = t) ∧
    (∀ us2 : List (ℕ × ℚ),
      updatePriorities table us2
        = updatePriorities table (us2.filter (fun u => u.1 ∈ table.map Prod.fst))) ∧
    (updatePriorities table us).map Prod.fst = table.map Prod.fst ∧
    lookupPriority k (updatePriorities table (us ++ [(k, p)])) = some p := by
  obtain ⟨hnd, hk⟩ := h
  have hfilter : ∀ (us2 : List (ℕ × ℚ)) (t : List (ℕ × ℚ)),
      updatePriorities t us2
        = updatePriorities t (us2.filter (fun u => u.1 ∈ t.map Prod.fst)) := by
    intro us2
    induction us2 with
    | nil => intro t; rfl
    | cons u us2 ih =>
        intro t
        by_cases hres : u.1 ∈ t.map Prod.fst
        · rw [List.filter_cons_of_pos (by simpa using hres)]
          show updatePriorities (applyUpdate t u) us2
            = updatePriorities (applyUpdate t u)
                (us2.filter (fun v => v.1 ∈ t.map Prod.fst))
          rw [ih (applyUpdate t u)]
          simp only [applyUpdate_keys]
        · rw [List.filter_cons_of_neg (by simpa using hres)]
          show updatePriorities (applyUpdate t u) us2
            = updatePriorities t (us2.filter (fun v => v.1 ∈ t.map Prod.fst))
          rw [applyUpdate_stale t u hres]
          exact ih t
  refine ⟨applyUpdate_stale, fun us2 => hfilter us2 table, updatePriorities_keys us table, ?_⟩
  rw [show updatePriorities table (us ++ [(k, p)])
        = applyUpdate (updatePriorities table us) (k, p) from List.foldl_append ..]
  apply lookupPriority_applyUpdate
  · rw [updatePriorities_keys]
    exact hnd
  · rw [updatePriorities_keys]
    exact hk

/-- Witness for C9: a two-item table, a stale update on key 7 and a resident update
on key 1. -/
theorem updatePriorities_spec_witness :
    ((([(0, (1 : ℚ)), (1, 1)] : List (ℕ × ℚ)).map Prod.fst).Nodup ∧
      1 ∈ ([(0, (1 : ℚ)), (1, 1)] : List (ℕ × ℚ)).map Prod.fst) ∧
    ((∀ t : List (ℕ × ℚ), ∀ u : ℕ × ℚ, u.1 ∉ t.map Prod.fst → applyUpdate t u = t) ∧
    (∀ us2 : List (ℕ × ℚ),
      updatePriorities [(0, 1), (1, 1)] us2
        = updatePriorities [(0, 1), (1, 1)]
            (us2.filter (fun u => u.1 ∈ ([(0, (1 : ℚ)), (1, 1)] : List (ℕ × ℚ)).map Prod.fst))) ∧
    (updatePriorities [(0, 1), (1, 1)] [(7, 5)]).map Prod.fst
        = ([(0, (1 : ℚ)), (1, 1)] : List (ℕ × ℚ)).map Prod.fst ∧
    lookupPriority 1 (updatePriorities [(0, 1), (1, 1)] ([(7, 5)] ++ [(1, 2)])) = some 2) :=
  ⟨⟨by decide, by decide⟩,
   updatePriorities_spec [(0, 1), (1, 1)] [(7, 5)] 1 2 ⟨by decide, by decide⟩⟩

/-! ### Positivity of priorities: abstract_agent.py line 115,
deep_q_learning.py lines 373-380 -/

/-- The priority passed by every `create_item` call (abstract_agent.py line 115:
`priority=1.`). -/
def createItemPriority : ℚ := 1

/-- Embedding of deep_q_learning.py lines 374-376 for one batch entry with TD error
e: `tf.minimum(tf.abs(error) + 0.01, 1.)`. -/
noncomputable def clippedError (e : ℝ) : ℝ := min (|e| + 1/100) 1

/-- Embedding of line 377: `tf.pow(clipped_errors, 0.6)`. -/
noncomputable def newPriority (e : ℝ) : ℝ := clippedError e ^ (0.6 : ℝ)

/-- C8: every priority the program hands to the buffer is strictly positive:
create_item always inserts with the default priority 1.0, and every new priority
computed in `_training_step` equals `(min(|e| + 0.01, 1))^0.6` and lies in the
interval `[0.01^0.6, 1]`. -/
theorem prioritiesPositive (e : ℝ) :
    createItemPriority = 1 ∧
    (0 : ℚ) < createItemPriority ∧
    newPriority e = min (|e| + 1/100) 1 ^ (0.6 : ℝ) ∧
    ((1/100 : ℝ) ^ (0.6 : ℝ)) ≤ newPriority e ∧
    newPriority e ≤ 1 ∧
    0 < newPriority e := by
  have hlo : (1/100 : ℝ) ≤ clippedError e := by
    unfold clippedError
    apply le_min
    · have := abs_nonneg e
      linarith
    · norm_num
  have hhi : clippedError e ≤ 1 := min_le_right _ _
  have hpos : (0 : ℝ) < clippedError e := lt_of_lt_of_le (by norm_num) hlo
  refine ⟨rfl, by norm_num [createItemPriority], rfl, ?_, ?_, ?_⟩
  · exact Real.rpow_le_rpow (by norm_num) hlo (by norm_num)
  · exact Real.rpow_le_one (le_of_lt hpos) hhi (by norm_num)
  · exact Real.rpow_pos_of_pos hpos _

/-! ### Importance-sampling normalization:
PriorityDoubleDuelingDQNAgent._training_step, deep_q_learning.py lines 353-357 -/

/-- The sample batch size 64 (deep_q_learning.py line 39), cast to a float scalar
at line 333. -/
noncomputable def tfSampleBatchSize : ℝ := 64

/-- Embedding of line 355 for one batch entry:
`tf.pow(batch_size * prob, -beta)`. -/
noncomputable def importanceWeight (beta p : ℝ) : ℝ := (tfSampleBatchSize * p) ^ (-beta)

/-- The elementwise importance-sampling weights of a batch of probabilities. -/
noncomputable def importanceWeights (beta : ℝ) (probs : List ℝ) : List ℝ :=
  probs.map (importanceWeight beta)

/-- Embedding of lines 356-357: each weight divided by the batch maximum m. -/
noncomputable def normalizedWeights (beta : ℝ) (probs : List ℝ) (m : ℝ) : List ℝ :=
  (importanceWeights beta probs).map (fun w => w / m)

/-- C10: for every non-empty batch whose sampling probabilities are all strictly
positive, the importance-sampling weights `(batch_size · p)^(−beta)` divided by
their batch maximum all lie in (0, 1], and the weight attaining the maximum
normalizes to exactly 1. -/
theorem normalizedWeights_spec (beta : ℝ) (probs : List ℝ)
    (h : probs ≠ [] ∧ ∀ p ∈ probs, 0 < p) :
    ∃ m : ℝ, (importanceWeights beta probs).maximum = (m : WithBot ℝ) ∧
      0 < m ∧
      (∀ w ∈ normalizedWeights beta probs m, 0 < w ∧ w ≤ 1) ∧
      (1 : ℝ) ∈ normalizedWeights beta probs m := by
  obtain ⟨hne, hpos⟩ := h
  have hwsne : importanceWeights beta probs ≠ [] := by
    unfold importanceWeights
    simpa using hne
  have hwpos : ∀ w ∈ importanceWeights beta probs, 0 < w := by
    intro w hw
    obtain ⟨p, hp, rfl⟩ := List.mem_map.mp hw
    apply Real.rpow_pos_of_pos
    have hp0 : 0 < p := hpos p hp
    have h64 : (0 : ℝ) < tfSampleBatchSize := by norm_num [tfSampleBatchSize]
    positivity
  obtain ⟨m, hm⟩ : ∃ m : ℝ, (importanceWeights beta probs).maximum = (m : WithBot ℝ) := by
    have hnb := List.maximum_ne_bot_of_ne_nil hwsne
    rcases hmax : (importanceWeights beta probs).maximum with _ | m
    · exact absurd hmax hnb
    · exact ⟨m, rfl⟩
  obtain ⟨hmem, hle⟩ := List.maximum_eq_coe_iff.mp hm
  have hmpos : 0 < m := hwpos m hmem
  refine ⟨m, hm, hmpos, ?_, ?_⟩
  · intro w hw
    obtain ⟨w0, hw0, rfl⟩ := List.mem_map.mp hw
    exact ⟨div_pos (hwpos w0 hw0) hmpos, (div_le_one hmpos).mpr (hle w0 hw0)⟩
  · refine List.mem_map.mpr ⟨m, hmem, ?_⟩
    exact div_self (ne_of_gt hmpos)

/-- Witness for C10: beta = 0.4 and the probability batch [1/2, 1/4]. -/
theorem normalizedWeights_spec_witness :
    (([1/2, 1/4] : List ℝ) ≠ [] ∧ ∀ p ∈ ([1/2, 1/4] : List ℝ), 0 < p) ∧
    (∃ m : ℝ, (importanceWeights (2/5) [1/2, 1/4]).maximum = (m : WithBot ℝ) ∧
      0 < m ∧
      (∀ w ∈ normalizedWeights (2/5) [1/2, 1/4] m, 0 < w ∧ w ≤ 1) ∧
      (1 : ℝ) ∈ normalizedWeights (2/5) [1/2, 1/4] m) := by
  have hne : ([1/2, 1/4] : List ℝ) ≠ [] := by simp
  have hpos : ∀ p ∈ ([1/2, 1/4] : List ℝ), 0 < p := by
    intro p hp
    simp only [List.mem_cons, List.not_mem_nil, or_false] at hp
    rcases hp with rfl | rfl
    · norm_num
    · norm_num
  exact ⟨⟨hne, hpos⟩, normalizedWeights_spec (2/5) [1/2, 1/4] ⟨hne, hpos⟩⟩

end TfRl
